import Mathlib

/-!
Verification development for the chess rules engine of this repository
(`board.py`).  The board-level operations (`put` / `__setitem__`, `remove`,
`destroy`, `move`, `place_king`, `get_danger_zone`, `get_attackers`,
`legal_moves`) are translated directly from `board.py`.  The per-piece
geometry (`pieces.py`) and the coordinate helpers (`misc.py`) are not part of
the available sources; their behaviour is modelled from the specification
(sections 4.1, 4.5), with positions taken in the internal 0-based coordinate
system (the chess-coordinate conversion of `misc.py` is treated as already
applied at the boundary).
-/

/-- The two chess teams, with the complement operation (`~team` in the
source). Modelled from the spec: `pieces.Team` is not under `src/`. -/
inductive Team where
  | w
  | b
deriving DecidableEq, Repr

/-- Complement of a team (`~team`). -/
def Team.compl : Team → Team
  | .w => .b
  | .b => .w

/-- The closed set of piece kinds. Modelled from the spec: `pieces.py` is not
under `src/`. -/
inductive Kind where
  | pawn
  | knight
  | bishop
  | rook
  | queen
  | king
deriving DecidableEq, Repr

/-- A board square in internal coordinates: (column, row), each in `0..7`. -/
abbrev Pos : Type := Int × Int

/-- A piece value: team, kind and its recorded `position` attribute.
Modelled from the spec (`pieces.Piece` is not under `src/`); the `alive`
flag is represented by membership in the board's piece map. -/
structure Piece where
  team : Team
  kind : Kind
  pos : Pos
deriving DecidableEq, Repr

/-- The position-indexed piece map (`Board._pieces`), as an insertion-ordered
association list, matching Python dict iteration order. -/
abbrev PieceList : Type := List (Pos × Piece)

/-- Errors raised by the board operations: `ValueError` on occupied squares,
`KeyError` on missing dict keys, `AttributeError` on a `None` king or
en-passant pawn. -/
inductive Err where
  | occupied
  | keyError
  | missingKing
  | noneError
deriving DecidableEq, Repr

/-- First-match association-list lookup (Python `dict.get` / `dict[k]`). -/
def alookup {β : Type} : List (Pos × β) → Pos → Option β
  | [], _ => none
  | (k, v) :: rest, p => if k = p then some v else alookup rest p

/-- Remove the first entry with the given key (Python `dict.pop`). -/
def eraseK {β : Type} : List (Pos × β) → Pos → List (Pos × β)
  | [], _ => []
  | (k, v) :: rest, p => if k = p then rest else (k, v) :: eraseK rest p

/-- Apply `f` to the value stored at key `k`; `none` when the key is absent
(Python `d[k] = f(d[k])`, which raises `KeyError` on a missing key). -/
def modifyK {β : Type} : List (Pos × β) → Pos → (β → β) → Option (List (Pos × β))
  | [], _, _ => none
  | (p, v) :: rest, k, f =>
    if p = k then some ((p, f v) :: rest)
    else (modifyK rest k f).map (fun l => (p, v) :: l)

/-! ## Piece geometry (modelled from the spec, section 4.1) -/

/-- Board-bounds check: both coordinates in `0..7`. -/
def inb (p : Pos) : Bool := 0 ≤ p.1 && p.1 < 8 && 0 ≤ p.2 && p.2 < 8

/-- Translate a position by an offset. -/
def shift (p : Pos) (d : Int × Int) : Pos := (p.1 + d.1, p.2 + d.2)

/-- The four diagonal ray directions. -/
def diagDirs : List (Int × Int) := [(1, 1), (1, -1), (-1, 1), (-1, -1)]

/-- The four orthogonal ray directions. -/
def orthDirs : List (Int × Int) := [(1, 0), (-1, 0), (0, 1), (0, -1)]

/-- The eight knight offsets. -/
def knightOffs : List (Int × Int) :=
  [(1, 2), (2, 1), (2, -1), (1, -2), (-1, -2), (-2, -1), (-2, 1), (-1, 2)]

/-- The eight king offsets. -/
def kingOffs : List (Int × Int) := diagDirs ++ orthDirs

/-- Modelled from the spec: a sliding ray of raw movement targets, stopped at
the first occupied square (inclusive if enemy, exclusive if own team). -/
def rayTargets (ps : PieceList) (t : Team) : Nat → Pos → (Int × Int) → List Pos
  | 0, _, _ => []
  | fuel + 1, p, d =>
    let q := shift p d
    if inb q then
      match alookup ps q with
      | none => q :: rayTargets ps t fuel q d
      | some pc => if pc.team = t then [] else [q]
    else []

/-- Modelled from the spec: a sliding danger-zone ray; it stops at the first
occupied square (inclusively, also for own-team pieces), except that an enemy
King does not block the ray. -/
def rayDanger (ps : PieceList) (t : Team) : Nat → Pos → (Int × Int) → List Pos
  | 0, _, _ => []
  | fuel + 1, p, d =>
    let q := shift p d
    if inb q then
      match alookup ps q with
      | none => q :: rayDanger ps t fuel q d
      | some pc =>
        if pc.team ≠ t ∧ pc.kind = Kind.king then q :: rayDanger ps t fuel q d
        else [q]
    else []

/-- Ray directions of a sliding piece kind. -/
def slideDirs : Kind → List (Int × Int)
  | .bishop => diagDirs
  | .rook => orthDirs
  | .queen => diagDirs ++ orthDirs
  | _ => []

/-- Direction of pawn advance: White toward increasing rank. -/
def pawnDir : Team → Int
  | .w => 1
  | .b => -1

/-- The starting rank of a pawn (internal row index). -/
def startRank : Team → Int
  | .w => 1
  | .b => 6

/-- The two diagonal capture squares of a pawn, filtered to the board. -/
def pawnCaps (pc : Piece) : List Pos :=
  [(pc.pos.1 - 1, pc.pos.2 + pawnDir pc.team),
   (pc.pos.1 + 1, pc.pos.2 + pawnDir pc.team)].filter (fun q => inb q)

/-- Is the square empty? -/
def isEmptyAt (ps : PieceList) (q : Pos) : Bool := (alookup ps q).isNone

/-- Is the square empty or held by an enemy of team `t`? -/
def enemyOrEmpty (ps : PieceList) (t : Team) (q : Pos) : Bool :=
  match alookup ps q with
  | some o => decide (o.team ≠ t)
  | none => true

/-- Is the square held by an enemy of team `t`? -/
def isEnemyAt (ps : PieceList) (t : Team) (q : Pos) : Bool :=
  match alookup ps q with
  | some o => decide (o.team ≠ t)
  | none => false

/-- Modelled from the spec: `piece.danger_zone(occupancy)` of `pieces.py` —
the squares the piece threatens.  Pawn: the diagonal capture squares
regardless of occupancy; Knight/King: the fixed offsets on the board;
sliders: danger rays (an enemy King does not block). -/
def Piece.dangerZone (pc : Piece) (ps : PieceList) : Finset Pos :=
  match pc.kind with
  | .pawn => (pawnCaps pc).toFinset
  | .knight => ((knightOffs.map (shift pc.pos)).filter (fun q => inb q)).toFinset
  | .king => ((kingOffs.map (shift pc.pos)).filter (fun q => inb q)).toFinset
  | k =>
    ((slideDirs k).foldr (fun d acc => rayDanger ps pc.team 8 pc.pos d ++ acc) []).toFinset

/-- Modelled from the spec: `piece.get_moves(occupancy, en_passant)` of
`pieces.py` — raw movement targets ignoring check and pins.  Pawn: single
advance onto an empty square, double advance from the starting rank when both
squares ahead are empty, diagonal captures onto enemy occupancy, and the
diagonal en-passant capture when it matches the passed `en_passant` square. -/
def Piece.getMoves (pc : Piece) (ps : PieceList) (ep : Option Pos) : Finset Pos :=
  match pc.kind with
  | .pawn =>
    let d := pawnDir pc.team
    let f1 : Pos := (pc.pos.1, pc.pos.2 + d)
    let f2 : Pos := (pc.pos.1, pc.pos.2 + 2 * d)
    let fwd : List Pos :=
      if inb f1 ∧ isEmptyAt ps f1 then
        f1 :: (if pc.pos.2 = startRank pc.team ∧ inb f2 ∧ isEmptyAt ps f2 then [f2] else [])
      else []
    let caps := (pawnCaps pc).filter
      (fun q => isEnemyAt ps pc.team q || decide (ep = some q))
    (fwd ++ caps).toFinset
  | .knight =>
    ((knightOffs.map (shift pc.pos)).filter
      (fun q => inb q && enemyOrEmpty ps pc.team q)).toFinset
  | .king =>
    ((kingOffs.map (shift pc.pos)).filter
      (fun q => inb q && enemyOrEmpty ps pc.team q)).toFinset
  | k =>
    ((slideDirs k).foldr (fun d acc => rayTargets ps pc.team 8 pc.pos d ++ acc) []).toFinset

/-- Modelled from the spec: the en-passant-relevant entry of the Pawn's
recorded last computed move set, `piece.move_set[piece.position]` in
`Board.move` — the square the pawn would pass over on a double advance, when
that advance is available from its current square (starting rank, both squares
ahead empty), else none. -/
def pawnSkip (ps : PieceList) (pc : Piece) : Option Pos :=
  let d := pawnDir pc.team
  let f1 : Pos := (pc.pos.1, pc.pos.2 + d)
  let f2 : Pos := (pc.pos.1, pc.pos.2 + 2 * d)
  if pc.pos.2 = startRank pc.team ∧ alookup ps f1 = none ∧ alookup ps f2 = none then
    some f1
  else none

/-- Modelled from the spec (section 4.5): the second phase of a pin scan.  A
friendly piece `fr` was found on the ray; keep walking and succeed when the
next occupied square holds an enemy slider of a matching kind. -/
def pinAfter (ps : PieceList) (t : Team) (kA kB : Kind) (fr : Piece) :
    Nat → Pos → (Int × Int) → Finset Pos → Option (Piece × Finset Pos)
  | 0, _, _, _ => none
  | fuel + 1, p, d, acc =>
    let q := shift p d
    if inb q then
      match alookup ps q with
      | none => pinAfter ps t kA kB fr fuel q d (insert q acc)
      | some pc =>
        if pc.team ≠ t ∧ (pc.kind = kA ∨ pc.kind = kB) then some (fr, insert q acc)
        else none
    else none

/-- Modelled from the spec (section 4.5): the first phase of a pin scan from
the King along one direction: the first occupied square must hold a friendly
piece, after which `pinAfter` looks for the pinning enemy slider. -/
def pinBefore (ps : PieceList) (t : Team) (kA kB : Kind) :
    Nat → Pos → (Int × Int) → Finset Pos → Option (Piece × Finset Pos)
  | 0, _, _, _ => none
  | fuel + 1, p, d, acc =>
    let q := shift p d
    if inb q then
      match alookup ps q with
      | none => pinBefore ps t kA kB fuel q d (insert q acc)
      | some pc =>
        if pc.team = t then pinAfter ps t kA kB pc 8 q d (insert q acc)
        else none
    else none

/-- Modelled from the spec: `king.check_pins(occupancy)` of `pieces.py` — for
each of the eight rays from the King, the pinned friendly piece together with
the squares of the King–attacker ray (attacker's square included). -/
def checkPins (ps : PieceList) (t : Team) (kpos : Pos) : List (Piece × Finset Pos) :=
  (diagDirs.map (fun d => pinBefore ps t Kind.bishop Kind.queen 8 kpos d ∅) ++
   orthDirs.map (fun d => pinBefore ps t Kind.rook Kind.queen 8 kpos d ∅)).reduceOption

/-! ## The board (`board.py`) -/

/-- The board state of `Board.__init__`: the 8×8 grid (`self.board`, `none`
standing for the numpy `0`), the position-indexed piece map (`self._pieces`),
the per-team king references (`self.kings`) and the en-passant state
(`self.en_passant`). -/
structure Board where
  grid : Pos → Option Piece
  pieces : PieceList
  kings : Team → Option Piece
  enPassant : Option Pos × Option Piece

/-- A fresh empty board. -/
def Board.empty : Board :=
  ⟨fun _ => none, [], fun _ => none, (none, none)⟩

/-- `Board.__setitem__` (the `put` operation): raises `ValueError` when the
grid square or the piece map is already occupied, leaving the board untouched;
otherwise inserts the piece into both representations. -/
def Board.put (s : Board) (pos : Pos) (val : Piece) : Option Err × Board :=
  if (s.grid pos).isSome ∨ (alookup s.pieces pos).isSome then (some Err.occupied, s)
  else
    (none,
      { s with
        grid := fun q => if q = pos then some val else s.grid q
        pieces := s.pieces ++ [(pos, val)] })

/-- `Board.remove`: pops the occupant from the piece map (raising `KeyError`
when absent, with the board untouched) and zeroes the grid square. -/
def Board.remove (s : Board) (pos : Pos) : Option Err × Board :=
  match alookup s.pieces pos with
  | none => (some Err.keyError, s)
  | some _ =>
    (none,
      { s with
        pieces := eraseK s.pieces pos
        grid := fun q => if q = pos then none else s.grid q })

/-- `Board.destroy`: removes the piece's recorded position from the board
(the `piece.destroy()` liveness flag is represented by map membership). -/
def Board.destroy (s : Board) (pc : Piece) : Option Err × Board :=
  s.remove pc.pos

/-- Sequencing of fallible board mutations: an error propagates together with
the board state at the point it was raised (Python exception semantics). -/
def chain (r : Option Err × Board) (f : Board → Option Err × Board) : Option Err × Board :=
  match r with
  | (some e, s) => (some e, s)
  | (none, s) => f s

/-- `Board.move`, translated line by line: for a Pawn, first the en-passant
capture when the destination is the recorded en-passant square, then the
unconditional overwrite of `en_passant` from the pawn's recorded move-set
entry; for a non-Pawn, `en_passant` is cleared and an occupant of the
destination is destroyed.  Finally the piece is removed from its old square,
its position updated, and re-inserted via `put`. -/
def Board.move (s : Board) (pc : Piece) (npos : Pos) : Option Err × Board :=
  let step1 : Option Err × Board :=
    if pc.kind = Kind.pawn then
      let skip := pawnSkip s.pieces pc
      let r : Option Err × Board :=
        if s.enPassant.1 = some npos then
          match s.enPassant.2 with
          | some epc => s.destroy epc
          | none => (some Err.noneError, s)
        else (none, s)
      chain r (fun s1 => (none, { s1 with enPassant := (skip, some pc) }))
    else
      let s0 : Board := { s with enPassant := (none, none) }
      match alookup s0.pieces npos with
      | some occ => s0.destroy occ
      | none => (none, s0)
  chain step1 (fun s2 =>
    chain (s2.remove pc.pos) (fun s3 => s3.put npos { pc with pos := npos }))

/-- `Board.place_king`: the chained assignment
`self[pos] = self.kings[team] = King(team, pos)` — the board insertion is
performed first (and may raise, leaving `kings` untouched); on success the
king reference is assigned. -/
def Board.placeKing (s : Board) (pos : Pos) (t : Team) : Option Err × Board :=
  let kg : Piece := ⟨t, Kind.king, pos⟩
  match s.put pos kg with
  | (some e, s1) => (some e, s1)
  | (none, s1) =>
    (none, { s1 with kings := fun t2 => if t2 = t then some kg else s1.kings t2 })

/-- The accumulation loop of `Board.get_danger_zone`: union of the danger
zones of the pieces of team `t`, in map iteration order. -/
def dzTeam (psAll : PieceList) (t : Team) : PieceList → Finset Pos
  | [] => ∅
  | (_, pc) :: rest =>
    if pc.team = t then pc.dangerZone psAll ∪ dzTeam psAll t rest
    else dzTeam psAll t rest

/-- `Board.get_danger_zone`: every square the given team can attack. -/
def Board.getDangerZone (s : Board) (t : Team) : Finset Pos :=
  dzTeam s.pieces t s.pieces

/-- One step of the attacker scan of `Board.get_attackers`: the `elif` chain
classifying a hostile piece standing in the matching phantom danger zone,
paired with its blocking-square set. -/
def attackNew (psAll : PieceList) (t : Team) (rd bd kd pd : Finset Pos)
    (pos : Pos) (pc : Piece) : Option (Piece × Finset Pos) :=
  if pc.team = t ∨ pc.kind = Kind.king then none
  else if (pc.kind = Kind.bishop ∨ pc.kind = Kind.queen) ∧ pos ∈ bd then
    some (pc, bd ∩ Piece.getMoves ⟨Team.compl t, Kind.bishop, pos⟩ psAll none)
  else if (pc.kind = Kind.rook ∨ pc.kind = Kind.queen) ∧ pos ∈ rd then
    some (pc, rd ∩ Piece.getMoves ⟨Team.compl t, Kind.rook, pos⟩ psAll none)
  else if pc.kind = Kind.knight ∧ pos ∈ kd then some (pc, {pos})
  else if pc.kind = Kind.pawn ∧ pos ∈ pd then some (pc, {pos})
  else none

/-- The enumeration loop of `Board.get_attackers`, with the early return once
two attackers have been found. -/
def attackersAux (psAll : PieceList) (t : Team) (rd bd kd pd : Finset Pos) :
    PieceList → List (Piece × Finset Pos) → List (Piece × Finset Pos)
  | [], acc => acc
  | (pos, pc) :: rest, acc =>
    let acc2 :=
      match attackNew psAll t rd bd kd pd pos pc with
      | some e => acc ++ [e]
      | none => acc
    if 2 ≤ acc2.length then acc2 else attackersAux psAll t rd bd kd pd rest acc2

/-- The body of `Board.get_attackers` once the king is known: phantom Rook,
Bishop, Knight and Pawn danger zones from the king's square, then the scan. -/
def attackersList (s : Board) (t : Team) (kg : Piece) : List (Piece × Finset Pos) :=
  let rd := Piece.dangerZone ⟨t, Kind.rook, kg.pos⟩ s.pieces
  let bd := Piece.dangerZone ⟨t, Kind.bishop, kg.pos⟩ s.pieces
  let kd := Piece.dangerZone ⟨t, Kind.knight, kg.pos⟩ s.pieces
  let pd := Piece.dangerZone ⟨t, Kind.pawn, kg.pos⟩ s.pieces
  attackersAux s.pieces t rd bd kd pd s.pieces []

/-- `Board.get_attackers`: the pieces checking the given team's king, each
with its blocking-square set; an absent king raises. -/
def Board.getAttackers (s : Board) (t : Team) : Except Err (List (Piece × Finset Pos)) :=
  match s.kings t with
  | none => .error Err.missingKing
  | some kg => .ok (attackersList s t kg)

/-- The first loop of `Board.legal_moves`: the raw move map of the friendly
pieces (pawns receiving the current en-passant square), in iteration order. -/
def buildPMoves (psAll : PieceList) (t : Team) (ep : Option Pos) :
    PieceList → List (Pos × Finset Pos)
  | [] => []
  | (pos, pc) :: rest =>
    if pc.team = t then (pos, pc.getMoves psAll ep) :: buildPMoves psAll t ep rest
    else buildPMoves psAll t ep rest

/-- The enemy danger-zone accumulation of the same loop of
`Board.legal_moves`. -/
def buildDZone (psAll : PieceList) (t : Team) : PieceList → Finset Pos
  | [] => ∅
  | (_, pc) :: rest =>
    if pc.team = t then buildDZone psAll t rest
    else pc.dangerZone psAll ∪ buildDZone psAll t rest

/-- The pin loop of `Board.legal_moves`: `pmoves[piece.position] &= rs` for
every pin, raising `KeyError` on a missing key. -/
def applyPins (pm : List (Pos × Finset Pos)) :
    List (Piece × Finset Pos) → Option (List (Pos × Finset Pos))
  | [] => some pm
  | (pc, rs) :: rest =>
    match modifyK pm pc.pos (fun v => v ∩ rs) with
    | none => none
    | some pm1 => applyPins pm1 rest

/-- The raw move map of the team after pin restriction (`pmoves` just before
the check handling in `Board.legal_moves`). -/
def Board.pinned (s : Board) (t : Team) (kg : Piece) : Option (List (Pos × Finset Pos)) :=
  applyPins (buildPMoves s.pieces t s.enPassant.1 s.pieces)
    (checkPins s.pieces kg.team kg.pos)

/-- The capture-or-block square set of the check branch of
`Board.legal_moves`: `block_moves | capture_moves`, which is non-empty only
for exactly one attacker. -/
def checkBlock (atk : List (Piece × Finset Pos)) : Finset Pos :=
  match atk with
  | [a] => insert a.1.pos a.2
  | _ => ∅

/-- The conditional en-passant re-add of `Board.legal_moves`
(`pmoves[pos].add(self.en_passant[0])` for a Pawn whenever the en-passant
square is set). -/
def epInsert (ep : Option Pos) (pc : Piece) (m : Finset Pos) : Finset Pos :=
  match ep with
  | some e => if pc.kind = Kind.pawn then insert e m else m
  | none => m

/-- One entry of the check-branch loop: intersect with the block set, then
the en-passant re-add, which looks the piece up in the map (`KeyError` when
absent — Python's `and` short-circuit means the lookup only happens when the
en-passant square is set). -/
def epAdd (ps : PieceList) (ep : Option Pos) (pos : Pos) (m : Finset Pos) :
    Option (Finset Pos) :=
  match ep with
  | none => some m
  | some _ =>
    match alookup ps pos with
    | none => none
    | some pc => some (epInsert ep pc m)

/-- The check-branch loop of `Board.legal_moves` over all entries, skipping
the king's square. -/
def checkEntries (ps : PieceList) (ep : Option Pos) (kpos : Pos) (blk : Finset Pos) :
    List (Pos × Finset Pos) → Option (List (Pos × Finset Pos))
  | [] => some []
  | (pos, m) :: rest =>
    if pos = kpos then (checkEntries ps ep kpos blk rest).map (fun l => (pos, m) :: l)
    else
      match epAdd ps ep pos (m ∩ blk) with
      | none => none
      | some m2 => (checkEntries ps ep kpos blk rest).map (fun l => (pos, m2) :: l)

/-- `Board.legal_moves`: raw moves and enemy danger zone, pin restriction,
check handling (capture/block intersection plus the en-passant re-add), and
finally the subtraction of the enemy danger zone from the King's entry. -/
def Board.legalMoves (s : Board) (t : Team) : Except Err (List (Pos × Finset Pos)) :=
  match s.kings t with
  | none => .error Err.missingKing
  | some kg =>
    match s.pinned t kg with
    | none => .error Err.keyError
    | some pm1 =>
      let atk := attackersList s t kg
      let pm2opt : Option (List (Pos × Finset Pos)) :=
        if 0 < atk.length then
          checkEntries s.pieces s.enPassant.1 kg.pos (checkBlock atk) pm1
        else some pm1
      match pm2opt with
      | none => .error Err.keyError
      | some pm2 =>
        match modifyK pm2 kg.pos (fun v => v \ buildDZone s.pieces t s.pieces) with
        | none => .error Err.keyError
        | some pm3 => .ok pm3

/-! ## Association-list lemmas -/

theorem alookup_append {β : Type} (l1 l2 : List (Pos × β)) (p : Pos) :
    alookup (l1 ++ l2) p =
      match alookup l1 p with
      | some v => some v
      | none => alookup l2 p := by
  induction l1 with
  | nil => rfl
  | cons e rest ih =>
    obtain ⟨k, v⟩ := e
    by_cases h : k = p <;> simp [alookup, h, ih]

theorem notkeys_alookup {β : Type} {l : List (Pos × β)} {p : Pos}
    (h : p ∉ l.map Prod.fst) : alookup l p = none := by
  induction l with
  | nil => rfl
  | cons e rest ih =>
    obtain ⟨k, v⟩ := e
    simp only [List.map_cons, List.mem_cons] at h
    push_neg at h
    have hk : ¬ k = p := fun hh => h.1 hh.symm
    simpa [alookup, hk] using ih h.2

theorem alookup_none_notkeys {β : Type} {l : List (Pos × β)} {p : Pos}
    (h : alookup l p = none) : p ∉ l.map Prod.fst := by
  induction l with
  | nil => simp
  | cons e rest ih =>
    obtain ⟨k, v⟩ := e
    by_cases hk : k = p
    · simp [alookup, hk] at h
    · simp only [alookup, if_neg hk] at h
      simp only [List.map_cons, List.mem_cons]
      push_neg
      exact ⟨fun hh => hk hh.symm, ih h⟩

theorem eraseK_keys_sublist {β : Type} (l : List (Pos × β)) (p : Pos) :
    ((eraseK l p).map Prod.fst).Sublist (l.map Prod.fst) := by
  induction l with
  | nil => simp [eraseK]
  | cons e rest ih =>
    obtain ⟨k, v⟩ := e
    by_cases h : k = p
    · simp only [eraseK, if_pos h, List.map_cons]
      exact List.sublist_cons_self _ _
    · simpa [eraseK, h] using ih.cons₂ k

theorem alookup_eraseK_self {β : Type} {l : List (Pos × β)} {p : Pos}
    (h : (l.map Prod.fst).Nodup) : alookup (eraseK l p) p = none := by
  induction l with
  | nil => rfl
  | cons e rest ih =>
    obtain ⟨k, v⟩ := e
    simp only [List.map_cons, List.nodup_cons] at h
    by_cases hk : k = p
    · subst hk
      simpa [eraseK] using notkeys_alookup h.1
    · simpa [eraseK, alookup, hk] using ih h.2

theorem alookup_eraseK_ne {β : Type} (l : List (Pos × β)) {p q : Pos} (h : q ≠ p) :
    alookup (eraseK l p) q = alookup l q := by
  induction l with
  | nil => rfl
  | cons e rest ih =>
    obtain ⟨k, v⟩ := e
    by_cases hk : k = p
    · subst hk
      have hq2 : ¬ k = q := fun hh => h hh.symm
      simp [eraseK, alookup, hq2]
    · by_cases hq : k = q
      · subst hq
        simp [eraseK, alookup, hk]
      · simp [eraseK, alookup, hk, hq, ih]

theorem modifyK_lookup_self {β : Type} {l l2 : List (Pos × β)} {k : Pos} {f : β → β}
    (h : modifyK l k f = some l2) :
    ∃ v, alookup l k = some v ∧ alookup l2 k = some (f v) := by
  induction l generalizing l2 with
  | nil => simp [modifyK] at h
  | cons e rest ih =>
    obtain ⟨p, v⟩ := e
    by_cases hp : p = k
    · subst hp
      simp only [modifyK, if_pos rfl] at h
      injection h with h
      subst h
      exact ⟨v, by simp [alookup], by simp [alookup]⟩
    · simp only [modifyK, if_neg hp, Option.map_eq_some'] at h
      obtain ⟨l3, h3, hcons⟩ := h
      obtain ⟨w, hw1, hw2⟩ := ih h3
      subst hcons
      exact ⟨w, by simpa [alookup, hp] using hw1, by simpa [alookup, hp] using hw2⟩

theorem modifyK_lookup_ne {β : Type} {l l2 : List (Pos × β)} {k : Pos} {f : β → β}
    (q : Pos) (h : modifyK l k f = some l2) (hq : q ≠ k) :
    alookup l2 q = alookup l q := by
  induction l generalizing l2 with
  | nil => simp [modifyK] at h
  | cons e rest ih =>
    obtain ⟨p, v⟩ := e
    by_cases hp : p = k
    · subst hp
      simp only [modifyK, if_pos rfl] at h
      injection h with h
      subst h
      have hq2 : ¬ p = q := fun hh => hq hh.symm
      simp [alookup, hq2]
    · simp only [modifyK, if_neg hp, Option.map_eq_some'] at h
      obtain ⟨l3, h3, hcons⟩ := h
      subst hcons
      by_cases hpq : p = q <;> simp [alookup, hpq, ih h3]

/-! ## The dual-representation invariant -/

/-- Agreement of the two board representations: a grid square holds a piece
iff the piece map has an entry for that position, and it is the same piece. -/
def agrees (s : Board) : Prop := ∀ p : Pos, s.grid p = alookup s.pieces p

/-- Key uniqueness of the piece map (structural for a Python dict; an
invariant of the association-list representation). -/
abbrev keysND (s : Board) : Prop := (s.pieces.map Prod.fst).Nodup

/-- The dual-representation invariant of the board. -/
def wfDual (s : Board) : Prop := agrees s ∧ keysND s

theorem chain_none {r : Option Err × Board} {f : Board → Option Err × Board} {s2 : Board}
    (h : chain r f = (none, s2)) : ∃ s1, r = (none, s1) ∧ f s1 = (none, s2) := by
  obtain ⟨o, s1⟩ := r
  cases o with
  | some e =>
    exact absurd (congrArg Prod.fst h) (by simp [chain])
  | none => exact ⟨s1, rfl, h⟩

theorem wf_put {s : Board} {pos : Pos} {v : Piece} {s2 : Board}
    (h : s.put pos v = (none, s2)) (hs : wfDual s) : wfDual s2 := by
  unfold Board.put at h
  split at h
  next hocc => exact absurd (congrArg Prod.fst h) (by simp)
  next hocc =>
    push_neg at hocc
    obtain ⟨hg, hl⟩ := hocc
    have hl2 : alookup s.pieces pos = none := by
      cases hlo : alookup s.pieces pos with
      | none => rfl
      | some w => simp [hlo] at hl
    injection h with h1 h2
    subst h2
    constructor
    · intro q
      by_cases hq : q = pos
      · subst hq
        simp [alookup_append, hl2, alookup]
      · have hne : ¬ pos = q := fun hh => hq hh.symm
        have hgq := hs.1 q
        cases hc : alookup s.pieces q with
        | some w => simp [if_neg hq, alookup_append, hc, hgq]
        | none => simp [if_neg hq, alookup_append, hc, alookup, hne, hgq]
    · have hnk : pos ∉ s.pieces.map Prod.fst := alookup_none_notkeys hl2
      simp only [keysND, List.map_append]
      rw [List.nodup_append]
      refine ⟨hs.2, List.nodup_singleton _, ?_⟩
      intro a ha hb
      simp only [List.map_cons, List.map_nil, List.mem_singleton] at hb
      subst hb
      exact hnk ha

theorem wf_remove {s : Board} {pos : Pos} {s2 : Board}
    (h : s.remove pos = (none, s2)) (hs : wfDual s) : wfDual s2 := by
  unfold Board.remove at h
  split at h
  next heq => exact absurd (congrArg Prod.fst h) (by simp)
  next w heq =>
    injection h with h1 h2
    subst h2
    constructor
    · intro q
      by_cases hq : q = pos
      · subst hq
        simp [alookup_eraseK_self hs.2]
      · simp [if_neg hq, alookup_eraseK_ne _ hq, hs.1 q]
    · exact hs.2.sublist (eraseK_keys_sublist _ _)

theorem wf_destroy {s : Board} {pc : Piece} {s2 : Board}
    (h : s.destroy pc = (none, s2)) (hs : wfDual s) : wfDual s2 :=
  wf_remove h hs

theorem wf_ep {s : Board} (e : Option Pos × Option Piece) (hs : wfDual s) :
    wfDual { s with enPassant := e } := hs

theorem wf_move {s : Board} {pc : Piece} {npos : Pos} {s2 : Board}
    (h : s.move pc npos = (none, s2)) (hs : wfDual s) : wfDual s2 := by
  simp only [Board.move] at h
  obtain ⟨sa, hstep, hrest⟩ := chain_none h
  obtain ⟨sb, hrem, hput⟩ := chain_none hrest
  refine wf_put hput (wf_remove hrem ?_)
  by_cases hk : pc.kind = Kind.pawn
  · rw [if_pos hk] at hstep
    obtain ⟨sc, hr, hg⟩ := chain_none hstep
    have hsc : wfDual sc := by
      by_cases hep : s.enPassant.1 = some npos
      · rw [if_pos hep] at hr
        cases hep2 : s.enPassant.2 with
        | none =>
          rw [hep2] at hr
          exact absurd (congrArg Prod.fst hr) (by simp)
        | some epc =>
          rw [hep2] at hr
          exact wf_destroy hr hs
      · rw [if_neg hep] at hr
        injection hr with hr1 hr2
        subst hr2
        exact hs
    injection hg with hg1 hg2
    subst hg2
    exact wf_ep _ hsc
  · rw [if_neg hk] at hstep
    split at hstep
    next occ heq => exact wf_destroy hstep (wf_ep _ hs)
    next heq =>
      injection hstep with h1 h2
      subst h2
      exact wf_ep _ hs

/-! ## Lemmas about the legality engine -/

theorem checkBlock_two {atk : List (Piece × Finset Pos)} (h : 2 ≤ atk.length) :
    checkBlock atk = ∅ := by
  match atk with
  | [] => simp at h
  | [a] => simp at h
  | a :: b :: rest => rfl

theorem epAdd_eq {ps : PieceList} {ep : Option Pos} {pos : Pos} {m r : Finset Pos}
    {pc : Piece} (h : epAdd ps ep pos m = some r) (hpc : alookup ps pos = some pc) :
    r = epInsert ep pc m := by
  cases ep with
  | none =>
    simp only [epAdd] at h
    injection h with h
    simp [epInsert, h]
  | some e =>
    simp only [epAdd, hpc] at h
    injection h with h
    exact h.symm

theorem checkEntries_lookup {ps : PieceList} {ep : Option Pos} {kpos : Pos}
    {blk : Finset Pos} {l l2 : List (Pos × Finset Pos)} {pos : Pos} {ms : Finset Pos}
    (h : checkEntries ps ep kpos blk l = some l2) (hpos : pos ≠ kpos)
    (hl : alookup l2 pos = some ms) :
    ∃ ms0, alookup l pos = some ms0 ∧ epAdd ps ep pos (ms0 ∩ blk) = some ms := by
  induction l generalizing l2 with
  | nil =>
    simp only [checkEntries] at h
    injection h with h
    subst h
    simp [alookup] at hl
  | cons e rest ih =>
    obtain ⟨p, m⟩ := e
    by_cases hpk : p = kpos
    · rw [checkEntries, if_pos hpk, Option.map_eq_some'] at h
      obtain ⟨l3, h3, hcons⟩ := h
      subst hcons
      have hne : ¬ p = pos := fun hh => hpos (hh ▸ hpk)
      rw [alookup, if_neg hne] at hl
      obtain ⟨ms0, hm1, hm2⟩ := ih h3 hl
      exact ⟨ms0, by rw [alookup, if_neg hne]; exact hm1, hm2⟩
    · rw [checkEntries, if_neg hpk] at h
      cases hadd : epAdd ps ep p (m ∩ blk) with
      | none => rw [hadd] at h; cases h
      | some m2 =>
        rw [hadd, Option.map_eq_some'] at h
        obtain ⟨l3, h3, hcons⟩ := h
        subst hcons
        by_cases hpq : p = pos
        · subst hpq
          rw [alookup, if_pos rfl] at hl
          injection hl with hl
          subst hl
          exact ⟨m, by rw [alookup, if_pos rfl], hadd⟩
        · rw [alookup, if_neg hpq] at hl
          obtain ⟨ms0, hm1, hm2⟩ := ih h3 hl
          exact ⟨ms0, by rw [alookup, if_neg hpq]; exact hm1, hm2⟩

theorem legalMoves_ok {s : Board} {t : Team} {kg : Piece} {m : List (Pos × Finset Pos)}
    (hk : s.kings t = some kg) (hlm : s.legalMoves t = .ok m) :
    ∃ pm1 pm2,
      s.pinned t kg = some pm1 ∧
      (if 0 < (attackersList s t kg).length then
        checkEntries s.pieces s.enPassant.1 kg.pos (checkBlock (attackersList s t kg)) pm1
       else some pm1) = some pm2 ∧
      modifyK pm2 kg.pos (fun v => v \ buildDZone s.pieces t s.pieces) = some m := by
  unfold Board.legalMoves at hlm
  rw [hk] at hlm
  simp only at hlm
  cases hp : s.pinned t kg with
  | none => rw [hp] at hlm; cases hlm
  | some pm1 =>
    rw [hp] at hlm
    simp only at hlm
    cases hc : (if 0 < (attackersList s t kg).length then
        checkEntries s.pieces s.enPassant.1 kg.pos (checkBlock (attackersList s t kg)) pm1
      else some pm1) with
    | none => rw [hc] at hlm; cases hlm
    | some pm2 =>
      rw [hc] at hlm
      simp only at hlm
      cases hm : modifyK pm2 kg.pos (fun v => v \ buildDZone s.pieces t s.pieces) with
      | none => rw [hm] at hlm; cases hlm
      | some pm3 =>
        rw [hm] at hlm
        injection hlm with hlm
        subst hlm
        exact ⟨pm1, pm2, rfl, hc, hm⟩

theorem buildDZone_eq (psAll : PieceList) (t : Team) (l : PieceList) :
    buildDZone psAll t l = dzTeam psAll (Team.compl t) l := by
  induction l with
  | nil => rfl
  | cons e rest ih =>
    obtain ⟨p, pc⟩ := e
    by_cases h : pc.team = t
    · have h2 : ¬ t = Team.compl t := by cases t <;> decide
      simp [buildDZone, dzTeam, h, h2, ih]
    · have h2 : pc.team = Team.compl t := by
        cases ht : pc.team <;> cases t <;> simp_all [Team.compl]
      have h3 : ¬ Team.compl t = t := by cases t <;> decide
      simp [buildDZone, dzTeam, h, h2, h3, ih]

/-! ## Lemmas about the attacker scan -/

theorem attackNew_props {psAll : PieceList} {t : Team} {rd bd kd pd : Finset Pos}
    {pos : Pos} {pc : Piece} {e : Piece × Finset Pos}
    (h : attackNew psAll t rd bd kd pd pos pc = some e) :
    e.1 = pc ∧ pc.kind ≠ Kind.king ∧
      ((pc.kind = Kind.knight ∨ pc.kind = Kind.pawn) → e.2 = {pos}) := by
  unfold attackNew at h
  split_ifs at h with h1 h2 h3 h4 h5 <;>
    (injection h with h
     subst h
     push_neg at h1
     refine ⟨rfl, h1.2, ?_⟩
     intro hkp
     first
       | rfl
       | (rcases h2.1 with hh | hh <;> rcases hkp with hh2 | hh2 <;> simp_all)
       | (rcases h3.1 with hh | hh <;> rcases hkp with hh2 | hh2 <;> simp_all))

theorem attackersAux_props (psAll : PieceList) (t : Team) (rd bd kd pd : Finset Pos)
    (l : PieceList) :
    ∀ acc : List (Piece × Finset Pos),
      (∀ e ∈ l, (Prod.snd e).pos = e.1) →
      acc.length ≤ 1 →
      (∀ e ∈ acc, e.1.kind ≠ Kind.king ∧
        ((e.1.kind = Kind.knight ∨ e.1.kind = Kind.pawn) → e.2 = {e.1.pos})) →
      (attackersAux psAll t rd bd kd pd l acc).length ≤ 2 ∧
      ∀ e ∈ attackersAux psAll t rd bd kd pd l acc,
        e.1.kind ≠ Kind.king ∧
        ((e.1.kind = Kind.knight ∨ e.1.kind = Kind.pawn) → e.2 = {e.1.pos}) := by
  induction l with
  | nil =>
    intro acc hwf hlen hP
    exact ⟨by simpa [attackersAux] using hlen.trans (by norm_num), by
      simpa [attackersAux] using hP⟩
  | cons hd rest ih =>
    obtain ⟨pos, pc⟩ := hd
    intro acc hwf hlen hP
    simp only [attackersAux]
    cases han : attackNew psAll t rd bd kd pd pos pc with
    | none =>
      have hif : ¬ 2 ≤ acc.length := by omega
      rw [if_neg hif]
      exact ih acc (fun e he => hwf e (List.mem_cons_of_mem _ he)) hlen hP
    | some a =>
      obtain ⟨ha1, ha2, ha3⟩ := attackNew_props han
      have hposa : pc.pos = pos := hwf (pos, pc) (List.mem_cons_self _ _)
      have hPa : ∀ e ∈ acc ++ [a], e.1.kind ≠ Kind.king ∧
          ((e.1.kind = Kind.knight ∨ e.1.kind = Kind.pawn) → e.2 = {e.1.pos}) := by
        intro e he
        rcases List.mem_append.mp he with he | he
        · exact hP e he
        · rw [List.mem_singleton] at he
          subst he
          refine ⟨ha1 ▸ ha2, ?_⟩
          intro hkp
          rw [ha1] at hkp
          rw [ha3 hkp, ha1, hposa]
      by_cases hif : 2 ≤ (acc ++ [a]).length
      · rw [if_pos hif]
        refine ⟨?_, hPa⟩
        simp only [List.length_append, List.length_singleton]
        omega
      · rw [if_neg hif]
        refine ih (acc ++ [a]) (fun e he => hwf e (List.mem_cons_of_mem _ he)) ?_ hPa
        simp only [List.length_append, List.length_singleton] at hif ⊢
        omega

/-! ## Concrete boards used as counterexamples and witnesses -/

/-- Build a board whose grid is kept in sync with the given piece list. -/
def mkBoard (l : PieceList) (kw kb : Option Piece) (ep : Option Pos × Option Piece) :
    Board :=
  ⟨fun q => alookup l q, l,
    fun t => match t with | .w => kw | .b => kb, ep⟩

/-- Black King on e8. -/
def bK : Piece := ⟨Team.b, Kind.king, (4, 7)⟩

/-- White Rook on e1, checking the black King along the e-file. -/
def wR1 : Piece := ⟨Team.w, Kind.rook, (4, 0)⟩

/-- White Rook on a8, checking the black King along the eighth rank. -/
def wR2 : Piece := ⟨Team.w, Kind.rook, (0, 7)⟩

/-- Black Pawn on h7. -/
def bP : Piece := ⟨Team.b, Kind.pawn, (7, 6)⟩

/-- White Pawn on h4 (the pawn recorded in the en-passant state). -/
def wP : Piece := ⟨Team.w, Kind.pawn, (7, 3)⟩

/-- White Pawn on d4. -/
def pw1 : Piece := ⟨Team.w, Kind.pawn, (3, 3)⟩

/-- Black Knight on e5. -/
def bN1 : Piece := ⟨Team.b, Kind.knight, (4, 4)⟩

/-- White Pawn on d2. -/
def pw3 : Piece := ⟨Team.w, Kind.pawn, (3, 1)⟩

/-- White Pawn on e5. -/
def wpE5 : Piece := ⟨Team.w, Kind.pawn, (4, 4)⟩

/-- Black Pawn on d5 (it has just double-advanced from d7). -/
def bpD5 : Piece := ⟨Team.b, Kind.pawn, (3, 4)⟩

/-- A white Queen used for placement tests. -/
def wQnew : Piece := ⟨Team.w, Kind.queen, (2, 2)⟩

/-- Board for the pawn-capture defect: white Pawn d4, black Knight e5. -/
def cb1 : Board := mkBoard [((3, 3), pw1), ((4, 4), bN1)] none none (none, none)

/-- Double-check board: black King e8 checked by Rooks e1 and a8, black Pawn
h7, white Pawn h4 with the en-passant square h3 recorded. -/
def cb2 : Board :=
  mkBoard [((4, 7), bK), ((4, 0), wR1), ((0, 7), wR2), ((7, 6), bP), ((7, 3), wP)]
    none (some bK) (some (7, 2), some wP)

/-- Single-pawn board: white Pawn d2 on an otherwise empty board. -/
def cb3 : Board := mkBoard [((3, 1), pw3)] none none (none, none)

/-- Single-check board: black King e8 checked by Rook e1, black Pawn h7,
white Pawn h4 with the en-passant square h3 recorded. -/
def cb4 : Board :=
  mkBoard [((4, 7), bK), ((4, 0), wR1), ((7, 6), bP), ((7, 3), wP)]
    none (some bK) (some (7, 2), some wP)

/-- En-passant capture board: white Pawn e5, black Pawn d5 that just
double-advanced, with the en-passant square d6 recorded. -/
def cb5 : Board :=
  mkBoard [((4, 4), wpE5), ((3, 4), bpD5)] none none (some (3, 5), some bpD5)

/-- The attacker list of the double-check board. -/
def atk2 : List (Piece × Finset Pos) :=
  match cb2.getAttackers Team.b with
  | .ok l => l
  | .error _ => []

/-- The legal-move map of the double-check board. -/
def m2 : List (Pos × Finset Pos) :=
  match cb2.legalMoves Team.b with
  | .ok l => l
  | .error _ => []

/-- The attacker list of the single-check board. -/
def atk4 : List (Piece × Finset Pos) :=
  match cb4.getAttackers Team.b with
  | .ok l => l
  | .error _ => []

/-- The legal-move map of the single-check board. -/
def m4 : List (Pos × Finset Pos) :=
  match cb4.legalMoves Team.b with
  | .ok l => l
  | .error _ => []

/-- The pin-restricted move map of the single-check board. -/
def pm4 : List (Pos × Finset Pos) :=
  match cb4.pinned Team.b bK with
  | some l => l
  | none => []

/-- The block set paired with the Rook attacker on the single-check board
(the squares of the e-file between Rook and King). -/
def a4bs : Finset Pos :=
  match attackersList cb4 Team.b bK with
  | e :: _ => e.2
  | [] => ∅

/-- The black Pawn's pin-restricted raw move set on the single-check board. -/
def msP4 : Finset Pos :=
  match alookup pm4 ((7, 6) : Pos) with
  | some v => v
  | none => ∅

/-- The black King's final move set on the single-check board. -/
def msK4 : Finset Pos :=
  match alookup m4 ((4, 7) : Pos) with
  | some v => v
  | none => ∅

/-! ## Claim theorems -/

/-- Claim C1 (evaluation of the defect): `Board.move` only destroys a
destination occupant in its non-Pawn branch, so a Pawn's ordinary capture
(white Pawn d4 takes black Knight e5, no en-passant state) raises the
occupied-square `ValueError` from `__setitem__` instead of completing: the
Knight is never destroyed and the Pawn has already left its old square. -/
theorem move_pawn_capture_raises :
    pw1.kind = Kind.pawn ∧
    (cb1.move pw1 (4, 4)).1 = some Err.occupied ∧
    alookup (cb1.move pw1 (4, 4)).2.pieces (4, 4) = some bN1 ∧
    alookup (cb1.move pw1 (4, 4)).2.pieces (3, 3) = none := by
  decide

/-- Claim C2 (counterexample): on a double-check board (two Rook attackers of
the black King) with a recorded en-passant square, `legal_moves` gives the
black Pawn at h7 the non-empty move set containing the en-passant square, so
not every non-King piece's entry is empty. -/
theorem doubleCheck_pawn_ep_cex :
    cb2.getAttackers Team.b = .ok atk2 ∧ atk2.length = 2 ∧
    cb2.legalMoves Team.b = .ok m2 ∧
    cb2.kings Team.b = some bK ∧ ((7, 6) : Pos) ≠ bK.pos ∧
    alookup cb2.pieces (7, 6) = some bP ∧ bP.kind ≠ Kind.king ∧
    alookup m2 (7, 6) = some {((7, 2) : Pos)} ∧
    ({((7, 2) : Pos)} : Finset Pos) ≠ (∅ : Finset Pos) :=
  ⟨rfl, by decide, rfl, by decide, by decide, by decide, by decide, by decide,
   by decide⟩

/-- Claim C2 (amended): with two or more attackers, `legal_moves` assigns to
every friendly piece other than the King the move set
`epInsert en_passant piece ∅`: the empty set for every non-Pawn piece, and,
when the en-passant square is set, exactly the singleton of that square for
every Pawn (the unconditional en-passant re-add fires even in double check). -/
theorem doubleCheck_moves_amended (s : Board) (t : Team) (kg pc : Piece)
    (m : List (Pos × Finset Pos)) (pos : Pos) (ms : Finset Pos)
    (hk : s.kings t = some kg)
    (hatk : 2 ≤ (attackersList s t kg).length)
    (hlm : s.legalMoves t = .ok m)
    (hpos : pos ≠ kg.pos)
    (hmem : alookup m pos = some ms)
    (hpc : alookup s.pieces pos = some pc) :
    ms = epInsert s.enPassant.1 pc ∅ := by
  obtain ⟨pm1, pm2, hp, hc, hmod⟩ := legalMoves_ok hk hlm
  rw [if_pos (by omega : 0 < (attackersList s t kg).length)] at hc
  rw [checkBlock_two hatk] at hc
  rw [modifyK_lookup_ne pos hmod hpos] at hmem
  obtain ⟨ms0, hm0, hadd⟩ := checkEntries_lookup hc hpos hmem
  rw [Finset.inter_empty] at hadd
  exact epAdd_eq hadd hpc

/-- Claim C2 (witness): the amended statement evaluated on the double-check
board at the black Pawn's square. -/
theorem doubleCheck_moves_amended_w :
    ({((7, 2) : Pos)} : Finset Pos) = epInsert cb2.enPassant.1 bP ∅ :=
  doubleCheck_moves_amended cb2 Team.b bK bP m2 (7, 6) {((7, 2) : Pos)}
    rfl (by decide) rfl (by decide) (by decide) (by decide)

/-- Claim C3 (evaluation of the defect): a white Pawn's single advance d2–d3
(not a two-square advance) completes and leaves `en_passant.square = d3`
instead of clearing it: `Board.move` stores an element of the pawn's recorded
move-set entry without consulting the destination. -/
theorem enPassant_set_on_single_advance :
    pw3.kind = Kind.pawn ∧
    (cb3.move pw3 (3, 2)).1 = none ∧
    (cb3.move pw3 (3, 2)).2.enPassant.1 = some ((3, 2) : Pos) ∧
    ((3, 2) : Pos) ≠ (pw3.pos.1, pw3.pos.2 + 2 * pawnDir pw3.team) := by
  decide

/-- Claim C4 (counterexample): on a single-check board whose attacker is a
Rook, with an en-passant square recorded for an unrelated white Pawn, the
black Pawn's `legal_moves` entry contains the en-passant square even though
the en-passant capture does not remove the attacking piece (the attacker is
not even a pawn), and the square lies outside capture-or-block set. -/
theorem singleCheck_ep_readd_cex :
    cb4.getAttackers Team.b = .ok atk4 ∧
    atk4.map Prod.fst = [wR1] ∧ wR1.kind = Kind.rook ∧
    cb4.enPassant = (some ((7, 2) : Pos), some wP) ∧ wP ≠ wR1 ∧
    cb4.legalMoves Team.b = .ok m4 ∧
    alookup m4 (7, 6) = some {((7, 2) : Pos)} ∧
    alookup cb4.pieces (7, 6) = some bP ∧ bP.kind = Kind.pawn ∧
    ((7, 2) : Pos) ∉ checkBlock atk4 :=
  ⟨rfl, by decide, by decide, by decide, by decide, rfl, by decide, by decide,
   by decide, by decide⟩

/-- Claim C4 (amended): with exactly one attacker, every non-King friendly
piece's entry is its pin-restricted move set intersected with
({attacker's square} ∪ blocking squares), after which the en-passant square is
re-added for every Pawn whenever `en_passant.square` is set — regardless of
whether the en-passant capture removes the attacking pawn. -/
theorem singleCheck_moves_amended (s : Board) (t : Team) (kg a1 pc : Piece)
    (a2 : Finset Pos) (pm1 m : List (Pos × Finset Pos)) (pos : Pos)
    (ms ms1 : Finset Pos)
    (hk : s.kings t = some kg)
    (hatk : attackersList s t kg = [(a1, a2)])
    (hpin : s.pinned t kg = some pm1)
    (hlm : s.legalMoves t = .ok m)
    (hpos : pos ≠ kg.pos)
    (h1 : alookup pm1 pos = some ms1)
    (hmem : alookup m pos = some ms)
    (hpc : alookup s.pieces pos = some pc) :
    ms = epInsert s.enPassant.1 pc (ms1 ∩ insert a1.pos a2) := by
  obtain ⟨pm1x, pm2, hp, hc, hmod⟩ := legalMoves_ok hk hlm
  rw [hpin] at hp
  injection hp with hp
  subst hp
  rw [hatk] at hc
  rw [if_pos (by simp)] at hc
  have hblk : checkBlock [(a1, a2)] = insert a1.pos a2 := rfl
  rw [hblk] at hc
  rw [modifyK_lookup_ne pos hmod hpos] at hmem
  obtain ⟨ms0, hm0, hadd⟩ := checkEntries_lookup hc hpos hmem
  rw [h1] at hm0
  injection hm0 with hm0
  subst hm0
  exact epAdd_eq hadd hpc

/-- Claim C4 (witness): the amended statement evaluated on the single-check
board at the black Pawn's square. -/
theorem singleCheck_moves_amended_w :
    ({((7, 2) : Pos)} : Finset Pos) =
      epInsert cb4.enPassant.1 bP (msP4 ∩ insert wR1.pos a4bs) :=
  singleCheck_moves_amended cb4 Team.b bK wR1 bP a4bs pm4 m4 (7, 6)
    {((7, 2) : Pos)} msP4
    rfl rfl rfl rfl (by decide) rfl (by decide) (by decide)


/-- Claim C5: when a Pawn is moved to the recorded en-passant square, the pawn
recorded in `en_passant.pawn` is destroyed (it is gone from the piece map
after the move) even though the moving Pawn does not land on its square. -/
theorem move_enPassant_destroys_pawn (s : Board) (pc epc : Piece) (npos : Pos)
    (s2 : Board) (hk : pc.kind = Kind.pawn)
    (hep : s.enPassant = (some npos, some epc)) (hnd : keysND s)
    (hne : epc.pos ≠ npos) (hmv : s.move pc npos = (none, s2)) :
    alookup s2.pieces epc.pos = none := by
  simp only [Board.move] at hmv
  split at hmv
  next hkp =>
    split at hmv
    next hcond =>
      split at hmv
      next epc2 heq2 =>
        rw [hep] at heq2
        injection heq2 with heq2
        subst heq2
        obtain ⟨sa, hstep, hrest⟩ := chain_none hmv
        obtain ⟨sc, hr, hg⟩ := chain_none hstep
        unfold Board.destroy Board.remove at hr
        split at hr
        next heq3 => exact absurd (congrArg Prod.fst hr) (by simp)
        next w heq3 =>
          injection hr with hr1 hr2
          have hscn : alookup sc.pieces epc.pos = none := by
            rw [← hr2]
            exact alookup_eraseK_self hnd
          injection hg with hg1 hg2
          obtain ⟨sb, hrem, hput⟩ := chain_none hrest
          have hsan : alookup sa.pieces epc.pos = none := by
            rw [← hg2]
            exact hscn
          unfold Board.remove at hrem
          split at hrem
          next heq4 => exact absurd (congrArg Prod.fst hrem) (by simp)
          next w2 heq4 =>
            have hsbn : alookup sb.pieces epc.pos = none := by
              by_cases hpp : epc.pos = pc.pos
              · rw [← hpp, hsan] at heq4
                cases heq4
              · injection hrem with hq1 hq2
                rw [← hq2]
                simpa [alookup_eraseK_ne _ hpp] using hsan
            unfold Board.put at hput
            split at hput
            next hocc => exact absurd (congrArg Prod.fst hput) (by simp)
            next hocc =>
              injection hput with hp1 hp2
              rw [← hp2]
              have hne2 : ¬ npos = epc.pos := fun hh => hne hh.symm
              simp [alookup_append, hsbn, alookup, hne2]
      next heq2 =>
        rw [hep] at heq2
        simp at heq2
    next hcond =>
      rw [hep] at hcond
      exact absurd rfl hcond
  next hkp => exact absurd hk hkp

/-- Claim C5 (witness): white Pawn e5 captures en passant on d6; the black
pawn on d5 recorded in the en-passant state is removed from the board. -/
theorem move_enPassant_destroys_pawn_w :
    alookup (cb5.move wpE5 (3, 5)).2.pieces bpD5.pos = none :=
  move_enPassant_destroys_pawn cb5 wpE5 bpD5 (3, 5) (cb5.move wpE5 (3, 5)).2
    rfl rfl (by decide) (by decide) rfl

/-- Claim C6: `__setitem__` on a square occupied in either representation
raises and returns the board unchanged (grid, piece map, kings and en-passant
state untouched, the occupant not overwritten); on an empty square it inserts
the piece into both the grid and the piece map, leaving kings and en-passant
state unchanged. -/
theorem put_occupied_or_insert (s : Board) (pos : Pos) (v : Piece) :
    (((s.grid pos).isSome ∨ (alookup s.pieces pos).isSome) →
      s.put pos v = (some Err.occupied, s)) ∧
    (s.grid pos = none → alookup s.pieces pos = none →
      (s.put pos v).1 = none ∧
      (s.put pos v).2.grid pos = some v ∧
      alookup (s.put pos v).2.pieces pos = some v ∧
      (s.put pos v).2.kings = s.kings ∧
      (s.put pos v).2.enPassant = s.enPassant) := by
  constructor
  · intro hocc
    unfold Board.put
    rw [if_pos hocc]
  · intro hg hl
    have hocc : ¬ ((s.grid pos).isSome ∨ (alookup s.pieces pos).isSome) := by
      simp [hg, hl]
    unfold Board.put
    rw [if_neg hocc]
    refine ⟨rfl, by simp, ?_, rfl, rfl⟩
    rw [alookup_append, hl]
    simp [alookup]

/-- Claim C6 (witness): on the pawn-and-knight board, placing a piece on the
occupied e5 raises with the board unchanged, while placing on the empty a1
inserts into both representations. -/
theorem put_occupied_or_insert_w :
    cb1.put (4, 4) wQnew = (some Err.occupied, cb1) ∧
    ((cb1.put (0, 0) wQnew).1 = none ∧
      (cb1.put (0, 0) wQnew).2.grid (0, 0) = some wQnew ∧
      alookup (cb1.put (0, 0) wQnew).2.pieces (0, 0) = some wQnew ∧
      (cb1.put (0, 0) wQnew).2.kings = cb1.kings ∧
      (cb1.put (0, 0) wQnew).2.enPassant = cb1.enPassant) :=
  ⟨(put_occupied_or_insert cb1 (4, 4) wQnew).1 (by decide),
   (put_occupied_or_insert cb1 (0, 0) wQnew).2 (by decide) (by decide)⟩

theorem wf_kings {s : Board} (k : Team → Option Piece) (hs : wfDual s) :
    wfDual { s with kings := k } := hs

/-- Claim C7: the dual board representation stays in agreement (a grid square
holds a piece iff the piece map has the same piece at that position, with
unique keys) under every successful `put`, `place_king`, `remove` and
`move`. -/
theorem dual_rep_preserved (s : Board) (hs : wfDual s) :
    (∀ pos v s2, s.put pos v = (none, s2) → wfDual s2) ∧
    (∀ pos t s2, s.placeKing pos t = (none, s2) → wfDual s2) ∧
    (∀ pos s2, s.remove pos = (none, s2) → wfDual s2) ∧
    (∀ pc npos s2, s.move pc npos = (none, s2) → wfDual s2) := by
  refine ⟨fun pos v s2 h => wf_put h hs, ?_, fun pos s2 h => wf_remove h hs,
    fun pc npos s2 h => wf_move h hs⟩
  intro pos t s2 h
  simp only [Board.placeKing] at h
  split at h
  next e s1 heq => exact absurd (congrArg Prod.fst h) (by simp)
  next s1 heq =>
    injection h with h1 h2
    subst h2
    exact wf_kings _ (wf_put heq hs)

/-- Claim C7 (witness): the invariant evaluated across a concrete successful
pawn move on the single-pawn board. -/
theorem dual_rep_preserved_w : wfDual (cb3.move pw3 (3, 2)).2 :=
  (dual_rep_preserved cb3 ⟨fun p => rfl, by decide⟩).2.2.2 pw3 (3, 2)
    (cb3.move pw3 (3, 2)).2 rfl

/-- Claim C8: the King's entry in the mapping returned by `legal_moves` is
disjoint from the opposing team's full danger zone, whatever the number of
attackers: the final step of `legal_moves` subtracts the enemy danger zone
from the King's move set. -/
theorem king_moves_disjoint_danger (s : Board) (t : Team) (kg : Piece)
    (m : List (Pos × Finset Pos)) (ms : Finset Pos)
    (hk : s.kings t = some kg) (hlm : s.legalMoves t = .ok m)
    (hms : alookup m kg.pos = some ms) :
    ms ∩ s.getDangerZone (Team.compl t) = ∅ := by
  obtain ⟨pm1, pm2, hp, hc, hmod⟩ := legalMoves_ok hk hlm
  obtain ⟨v, hv1, hv2⟩ := modifyK_lookup_self hmod
  rw [hms] at hv2
  injection hv2 with hv2
  rw [hv2, Board.getDangerZone, ← buildDZone_eq]
  ext x
  simp only [Finset.mem_inter, Finset.mem_sdiff, Finset.not_mem_empty, iff_false]
  intro hx
  exact hx.1.2 hx.2

/-- Claim C8 (witness): the property evaluated for the black King on the
single-check board. -/
theorem king_moves_disjoint_danger_w :
    msK4 ∩ cb4.getDangerZone (Team.compl Team.b) = ∅ :=
  king_moves_disjoint_danger cb4 Team.b bK m4 msK4 rfl rfl rfl

/-- Claim C9: `get_attackers` returns at most two attackers (the scan returns
early at two), never lists a King as an attacker, and pairs every Knight or
Pawn attacker with exactly the singleton of that attacker's own square. -/
theorem getAttackers_shape (s : Board) (t : Team) (atk : List (Piece × Finset Pos))
    (hwf : ∀ e ∈ s.pieces, (Prod.snd e).pos = e.1)
    (ha : s.getAttackers t = .ok atk) :
    atk.length ≤ 2 ∧
      (∀ e ∈ atk, e.1.kind ≠ Kind.king) ∧
      (∀ e ∈ atk, (e.1.kind = Kind.knight ∨ e.1.kind = Kind.pawn) → e.2 = {e.1.pos}) := by
  unfold Board.getAttackers at ha
  cases hkg : s.kings t with
  | none =>
    rw [hkg] at ha
    cases ha
  | some kg =>
    rw [hkg] at ha
    injection ha with ha
    subst ha
    have h2 := attackersAux_props s.pieces t
      (Piece.dangerZone ⟨t, Kind.rook, kg.pos⟩ s.pieces)
      (Piece.dangerZone ⟨t, Kind.bishop, kg.pos⟩ s.pieces)
      (Piece.dangerZone ⟨t, Kind.knight, kg.pos⟩ s.pieces)
      (Piece.dangerZone ⟨t, Kind.pawn, kg.pos⟩ s.pieces)
      s.pieces [] hwf (by simp) (by simp)
    exact ⟨h2.1, fun e he => (h2.2 e he).1, fun e he => (h2.2 e he).2⟩

/-- Claim C9 (witness): the shape facts evaluated on the double-check board,
whose attacker list has length exactly two. -/
theorem getAttackers_shape_w :
    atk2.length ≤ 2 ∧
      (∀ e ∈ atk2, e.1.kind ≠ Kind.king) ∧
      (∀ e ∈ atk2, (e.1.kind = Kind.knight ∨ e.1.kind = Kind.pawn) → e.2 = {e.1.pos}) :=
  getAttackers_shape cb2 Team.b atk2 (by decide) rfl

/-- Claim C10: `place_king` performs the board insertion first, so on an
occupied square it raises with the board — kings included — unchanged; on an
empty square it inserts the new King into both representations and sets the
king reference of its team. -/
theorem placeKing_occupied_or_set (s : Board) (pos : Pos) (t : Team) :
    (((s.grid pos).isSome ∨ (alookup s.pieces pos).isSome) →
      s.placeKing pos t = (some Err.occupied, s)) ∧
    (s.grid pos = none → alookup s.pieces pos = none →
      (s.placeKing pos t).1 = none ∧
      (s.placeKing pos t).2.kings t = some ⟨t, Kind.king, pos⟩ ∧
      (s.placeKing pos t).2.grid pos = some ⟨t, Kind.king, pos⟩ ∧
      alookup (s.placeKing pos t).2.pieces pos = some ⟨t, Kind.king, pos⟩) := by
  constructor
  · intro hocc
    have hput : s.put pos ⟨t, Kind.king, pos⟩ = (some Err.occupied, s) := by
      unfold Board.put
      rw [if_pos hocc]
    simp only [Board.placeKing, hput]
  · intro hg hl
    have hocc : ¬ ((s.grid pos).isSome ∨ (alookup s.pieces pos).isSome) := by
      simp [hg, hl]
    simp only [Board.placeKing, Board.put]
    rw [if_neg hocc]
    refine ⟨rfl, by simp, by simp, ?_⟩
    rw [alookup_append, hl]
    simp [alookup]

/-- Claim C10 (witness): placement of a King on the occupied e5 raises with
the board unchanged; placement on the empty c3 inserts the King into both
representations and sets the white king reference. -/
theorem placeKing_occupied_or_set_w :
    cb1.placeKing (4, 4) Team.w = (some Err.occupied, cb1) ∧
    ((cb1.placeKing (2, 2) Team.w).1 = none ∧
      (cb1.placeKing (2, 2) Team.w).2.kings Team.w = some ⟨Team.w, Kind.king, (2, 2)⟩ ∧
      (cb1.placeKing (2, 2) Team.w).2.grid (2, 2) = some ⟨Team.w, Kind.king, (2, 2)⟩ ∧
      alookup (cb1.placeKing (2, 2) Team.w).2.pieces (2, 2) = some ⟨Team.w, Kind.king, (2, 2)⟩) :=
  ⟨(placeKing_occupied_or_set cb1 (4, 4) Team.w).1 (by decide),
   (placeKing_occupied_or_set cb1 (2, 2) Team.w).2 (by decide) (by decide)⟩
